import Mathlib

/-!
Verification of the holodeck binary-evolution integrator and GW-synthesis engine.

This file gives a shallow embedding, in Lean, of the numeric core of the
holodeck repository (holodeck/evolution.py, holodeck/gravwaves.py,
holodeck/utils.py), and proves or refutes a collection of claims about it.

Machine floating-point arithmetic is modelled by exact arithmetic: rational
numbers where the code only adds, multiplies, divides and compares, and real
numbers where the code takes logarithms or exponentials.  NaN results
(numpy fill values for invalid interpolation targets) are modelled by
Option.none.  Randomness (numpy Poisson draws) is modelled by passing the
sampler as an oracle function and reasoning about the argument it receives.
-/

namespace Holodeck

/-! ## Numeric utilities (holodeck/utils.py and numpy primitives) -/

/-- Embedding of numpy.clip: clip(x, lo, hi) = min(max(x, lo), hi). -/
def clip {α : Type} [LinearOrder α] (x lo hi : α) : α := min (max x lo) hi

theorem clip_le_hi {α : Type} [LinearOrder α] (x lo hi : α) : clip x lo hi ≤ hi :=
  min_le_right _ _

theorem lo_le_clip {α : Type} [LinearOrder α] (x lo hi : α) (h : lo ≤ hi) :
    lo ≤ clip x lo hi :=
  le_min (le_trans (le_max_right _ _) (le_refl _)) h |>.trans_eq rfl

/-! ## Eccentricity clipping in the fixed-step integrator
(Evolution._take_next_step, evolution.py lines 832-836 and 881-889) -/

/-- Constant from evolution.py line 85: MAX ECCEN is 1 - 1.0e-6. -/
def maxEccenOneMinus {α : Type} [DivisionRing α] : α := 1 / 1000000

/-- Embedding of the stored (right-edge) eccentricity update of
Evolution._take_next_step: the left-edge eccentricity plus the trapezoid
integrated eccentricity change, clipped into the interval
from 0 to 1 - maxEccenOneMinus.  The change decc is kept abstract since it
is produced by the hardening models. -/
def eccen_update {α : Type} [LinearOrderedField α] (eLeft decc : α) : α :=
  clip (eLeft + decc) 0 (1 - maxEccenOneMinus)

/-- The full stored eccentricity track of one binary after Evolution.evolve:
step 0 holds the initial population eccentricity
(Evolution._init_step_zero, line 766), and each subsequent step stores the
clipped update of the previous stored value (the provisional write at lines
832-836 is overwritten by the corrected write at lines 881-889, both of
which clip; deccs lists the per-step corrected eccentricity changes). -/
def eccen_track {α : Type} [LinearOrderedField α] (e0 : α) (deccs : List α) : List α :=
  List.scanl eccen_update e0 deccs

theorem eccen_update_mem {α : Type} [LinearOrderedField α] (eLeft decc : α) :
    0 ≤ eccen_update eLeft decc ∧ eccen_update eLeft decc ≤ 1 - maxEccenOneMinus := by
  constructor
  · exact lo_le_clip _ _ _ (by norm_num [maxEccenOneMinus])
  · exact clip_le_hi _ _ _

/-- C6: for every binary with eccentricity tracked whose initial population
eccentricity lies in the interval from 0 to 1 - 1e-6, after Evolution.evolve
completes, the stored eccentricity at every step of its track lies in that
same interval (the clip bound from the MAX ECCEN constant). -/
theorem eccen_track_bounded {α : Type} [LinearOrderedField α]
    (e0 : α) (deccs : List α)
    (h0 : 0 ≤ e0) (h1 : e0 ≤ 1 - maxEccenOneMinus) :
    ∀ e ∈ eccen_track e0 deccs, 0 ≤ e ∧ e ≤ 1 - maxEccenOneMinus := by
  induction deccs generalizing e0 with
  | nil =>
    intro e he
    simp only [eccen_track, List.scanl] at he
    simp only [List.mem_singleton] at he
    exact he ▸ ⟨h0, h1⟩
  | cons d ds ih =>
    intro e he
    simp only [eccen_track, List.scanl, List.mem_cons] at he
    rcases he with rfl | he
    · exact ⟨h0, h1⟩
    · have hb := eccen_update_mem e0 d
      exact ih (eccen_update e0 d) hb.1 hb.2 e he

/-- Concrete instance of the eccentricity-bounds theorem: initial
eccentricity one half, two steps with extreme eccentricity changes. -/
theorem eccen_track_bounded_witness :
    (0 ≤ (1:ℚ)/2 ∧ (1:ℚ)/2 ≤ 1 - maxEccenOneMinus) ∧
    ∀ e ∈ eccen_track ((1:ℚ)/2) [2, -3], 0 ≤ e ∧ e ≤ 1 - maxEccenOneMinus :=
  ⟨⟨by norm_num, by norm_num [maxEccenOneMinus]⟩,
    eccen_track_bounded ((1:ℚ)/2) [2, -3] (by norm_num) (by norm_num [maxEccenOneMinus])⟩

/-! ## Monte-Carlo GW synthesis: foreground and background
(gravwaves.py, function calc-mc-at-fobs, lines 205-228)

For one target frequency and one realization, the code works with a vector
temp of per-source characteristic-strain-squared contributions
(hs2 times gne times (2/n)^2) and a vector npois of Poisson-sampled source
counts.  It computes the total as the count-weighted sum, the foreground by
sorting temp masked by presence (descending) and taking the FIRST element,
and the background as total minus foreground.  The loudest argument only
controls how many of the sorted values are returned in the loud array. -/

/-- Embedding of temp masked by source presence: the code multiplies temp by
the boolean array (num pois greater than 0) before sorting. -/
def masked_temp {α : Type} [LinearOrderedField α] (temp : List α) (npois : List ℕ) : List α :=
  List.zipWith (fun t k => t * (if 0 < k then 1 else 0)) temp npois

/-- Total characteristic-strain-squared of one realization: the sum of
temp weighted by the Poisson counts (mc both, line 209). -/
def mc_both {α : Type} [LinearOrderedField α] (temp : List α) (npois : List ℕ) : α :=
  (List.zipWith (fun t k => t * (k : α)) temp npois).sum

/-- The masked temp values sorted in descending order (line 217: ascending
numpy sort followed by reversal). -/
def loud_sorted {α : Type} [LinearOrderedField α] (temp : List α) (npois : List ℕ) : List α :=
  List.insertionSort (· ≥ ·) (masked_temp temp npois)

/-- The foreground of one realization, as computed by the code: the first
entry of the descending sort, i.e. only the single loudest present source
(line 218: mc ecc fore is loud row zero). -/
def mc_fore {α : Type} [LinearOrderedField α] (temp : List α) (npois : List ℕ) : α :=
  (loud_sorted temp npois).headD 0

/-- The loud output array: the first L entries of the descending sort
(line 219); this is where the loudest argument is actually used. -/
def loud_out {α : Type} [LinearOrderedField α] (L : ℕ) (temp : List α) (npois : List ℕ) : List α :=
  (loud_sorted temp npois).take L

/-- The background of one realization: total minus foreground (line 227). -/
def mc_back {α : Type} [LinearOrderedField α] (temp : List α) (npois : List ℕ) : α :=
  mc_both temp npois - mc_fore temp npois

/-- The foreground as the claim words it: the summed contribution of the L
loudest sources of the realization, sources ranked by strain squared.  This
definition follows the specification text, for comparison against the
mc fore definition taken from the source. -/
def spec_fore_topL {α : Type} [LinearOrderedField α]
    (L : ℕ) (temp : List α) (npois : List ℕ) : α :=
  ((loud_sorted temp npois).take L).sum

/-- C1 counterexample: with two present sources of strengths 1 and 2 and
loudest L = 2, the code foreground is 2 (single loudest) while the claimed
summed top-L foreground is 3, and correspondingly the backgrounds differ. -/
theorem calc_mc_fore_topL_counterexample :
    mc_fore [(1:ℚ), 2] [1, 1] ≠ spec_fore_topL 2 [(1:ℚ), 2] [1, 1] ∧
    mc_back [(1:ℚ), 2] [1, 1] ≠
      mc_both [(1:ℚ), 2] [1, 1] - spec_fore_topL 2 [(1:ℚ), 2] [1, 1] := by
  constructor <;>
    norm_num [mc_fore, mc_back, mc_both, spec_fore_topL, loud_sorted, masked_temp,
      List.insertionSort, List.orderedInsert]

/-- C1 amended: in every realization with at least one source position, the
returned foreground equals the single largest masked contribution (each
Poisson-sampled source counted once, regardless of its multiplicity), and
the returned background equals the total count-weighted
characteristic-strain-squared minus that single-loudest foreground. -/
theorem calc_mc_fore_single_loudest {α : Type} [LinearOrderedField α]
    (temp : List α) (npois : List ℕ)
    (hne : masked_temp temp npois ≠ []) :
    mc_fore temp npois ∈ masked_temp temp npois ∧
    (∀ x ∈ masked_temp temp npois, x ≤ mc_fore temp npois) ∧
    mc_back temp npois = mc_both temp npois - mc_fore temp npois := by
  have hperm : List.Perm (loud_sorted temp npois) (masked_temp temp npois) :=
    List.perm_insertionSort _ _
  have hsorted : List.Sorted (· ≥ ·) (loud_sorted temp npois) :=
    List.sorted_insertionSort _ _
  have hne2 : loud_sorted temp npois ≠ [] := by
    intro h
    rw [h] at hperm
    exact hne hperm.symm.eq_nil
  obtain ⟨a, t, hat⟩ := List.exists_cons_of_ne_nil hne2
  have hhead : mc_fore temp npois = a := by
    simp [mc_fore, hat]
  refine ⟨?_, ?_, rfl⟩
  · rw [hhead]
    refine hperm.mem_iff.mp ?_
    rw [hat]
    exact List.mem_cons_self a t
  · intro x hx
    rw [hhead]
    have hx2 : x ∈ loud_sorted temp npois := hperm.mem_iff.mpr hx
    rw [hat] at hx2 hsorted
    rcases List.mem_cons.mp hx2 with rfl | hx3
    · exact le_refl x
    · exact (List.sorted_cons.mp hsorted).1 x hx3

/-- Concrete instance of the amended foreground theorem, at the same input
as the counterexample. -/
theorem calc_mc_fore_single_loudest_witness :
    masked_temp [(1:ℚ), 2] [1, 1] ≠ [] ∧
    (mc_fore [(1:ℚ), 2] [1, 1] ∈ masked_temp [(1:ℚ), 2] [1, 1] ∧
      (∀ x ∈ masked_temp [(1:ℚ), 2] [1, 1], x ≤ mc_fore [(1:ℚ), 2] [1, 1]) ∧
      mc_back [(1:ℚ), 2] [1, 1] =
        mc_both [(1:ℚ), 2] [1, 1] - mc_fore [(1:ℚ), 2] [1, 1]) :=
  ⟨by simp [masked_temp], calc_mc_fore_single_loudest [(1:ℚ), 2] [1, 1] (by simp [masked_temp])⟩

/-! ## Eccentricity-harmonic weighting near zero eccentricity
(gravwaves.py lines 173-183)

After computing gne with the Bessel recursion of utils.gw freq dist func
(numerically unstable as eccentricity approaches zero), the code overrides
the result by two masked assignments: first gne is set to 0 wherever the
eccentricity is below 1e-8, then it is set to 1 wherever additionally the
harmonic number is 2.  The raw Bessel values are kept abstract here, since
only the override path decides the claim. -/

/-- The explicit near-zero eccentricity threshold (gravwaves.py line 181). -/
def gw_eccen_near_zero {α : Type} [DivisionRing α] : α := 1 / 100000000

/-- First masked assignment (line 182): gne is zeroed at entries whose
eccentricity is below the near-zero threshold. -/
def gne_masked_zero {α : Type} [LinearOrderedField α] (gRaw eccen : List α) : List α :=
  List.zipWith (fun g e => if e < gw_eccen_near_zero then 0 else g) gRaw eccen

/-- Second masked assignment (line 183): entries whose harmonic is 2 and
whose eccentricity is below the threshold are set to one. -/
def gne_overridden {α : Type} [LinearOrderedField α]
    (gRaw eccen : List α) (harms : List ℕ) : List α :=
  List.zipWith (fun (ge : α × α) n => if n = 2 ∧ ge.2 < gw_eccen_near_zero then 1 else ge.1)
    ((gne_masked_zero gRaw eccen).zip eccen) harms

/-- C7: for every valid (source, harmonic) pair whose eccentricity is below
the explicit near-zero threshold, the weight applied in the GW synthesis is
exactly 1 when the harmonic is 2 and exactly 0 otherwise. -/
theorem gne_override_near_zero {α : Type} [LinearOrderedField α]
    (gRaw eccen : List α) (harms : List ℕ) (i : ℕ)
    (hg : i < gRaw.length) (he : i < eccen.length) (hn : i < harms.length)
    (hlt : eccen[i] < gw_eccen_near_zero) :
    (gne_overridden gRaw eccen harms)[i]? =
      some (if harms[i] = 2 then (1:α) else 0) := by
  have hmz : i < (gne_masked_zero gRaw eccen).length := by
    unfold gne_masked_zero
    rw [List.length_zipWith]
    omega
  have hzip : i < ((gne_masked_zero gRaw eccen).zip eccen).length := by
    rw [List.length_zip]
    omega
  have hlen : i < (gne_overridden gRaw eccen harms).length := by
    unfold gne_overridden
    rw [List.length_zipWith]
    omega
  rw [List.getElem?_eq_getElem hlen]
  congr 1
  unfold gne_overridden
  rw [List.getElem_zipWith]
  rw [List.getElem_zip]
  unfold gne_masked_zero
  rw [List.getElem_zipWith]
  by_cases h2 : harms[i] = 2
  · simp [h2, hlt]
  · simp [h2, hlt]

/-- Concrete instance of the near-zero harmonic-weight theorem: three
(source, harmonic) pairs with harmonics 1, 2, 3, tiny eccentricity at
index 1 (harmonic 2). -/
theorem gne_override_near_zero_witness :
    1 < [(7:ℚ), 8, 9].length ∧ 1 < [(0:ℚ), 0, 1/2].length ∧ 1 < [1, 2, 3].length ∧
    [(0:ℚ), 0, 1/2][1] < gw_eccen_near_zero ∧
    (gne_overridden [(7:ℚ), 8, 9] [0, 0, 1/2] [1, 2, 3])[1]? =
      some (if [1, 2, 3][1] = 2 then (1:ℚ) else 0) :=
  ⟨by norm_num, by norm_num, by norm_num, by norm_num [gw_eccen_near_zero],
    gne_override_near_zero [(7:ℚ), 8, 9] [0, 0, 1/2] [1, 2, 3] 1
      (by norm_num) (by norm_num) (by norm_num) (by norm_num [gw_eccen_near_zero])⟩

/-! ## Universe resampler Poisson count
(Evolution sample universe and its resample step, evolution.py lines 722-740) -/

/-- Embedding of the down-sampling of the weights: when a down-sample factor
is provided each weight is divided by it (line 727), otherwise the weights
are untouched. -/
def resample_weights {α : Type} [LinearOrderedField α]
    (weights : List α) (down_sample : Option α) : List α :=
  match down_sample with
  | none => weights
  | some d => weights.map (fun w => w / d)

/-- Embedding of the synthetic-catalog count draw (line 734): the number of
samples requested from the kernel-density resampler is a Poisson draw whose
mean is the sum of the (possibly down-sampled) weights.  The numpy Poisson
sampler is modelled as an oracle function from the mean to a count. -/
def resample_nsamp {α : Type} [LinearOrderedField α]
    (poisson : α → ℕ) (weights : List α) (down_sample : Option α) : ℕ :=
  poisson (resample_weights weights down_sample).sum

theorem sum_map_div {α : Type} [LinearOrderedField α] (weights : List α) (d : α) :
    (weights.map (fun w => w / d)).sum = weights.sum / d := by
  induction weights with
  | nil => simp
  | cons w ws ih => simp [ih, add_div]

/-- C8: the count of synthetic binaries drawn by the resampler is the
Poisson sampler applied to the sum of the per-(binary, frequency) weights
divided by the down-sample factor when one is provided, and to the plain
sum of the weights when it is not. -/
theorem resample_nsamp_mean {α : Type} [LinearOrderedField α]
    (poisson : α → ℕ) (weights : List α) (d : α) :
    resample_nsamp poisson weights (some d) = poisson (weights.sum / d) ∧
    resample_nsamp poisson weights none = poisson weights.sum := by
  constructor
  · simp [resample_nsamp, resample_weights, sum_map_div]
  · simp [resample_nsamp, resample_weights]

/-! ## Evolution lifecycle and the evolved flag
(evolution.py lines 215-247, 249-252, 408-414, 1006-1015, 1096-1101) -/

/-- The lifecycle state of an Evolution instance: whether finalization has
happened (the evolved flag, set False in the constructor at line 208) and
how many integration steps have been taken. -/
structure EvoLifecycle where
  evolved : Bool
  steps_taken : ℕ
deriving DecidableEq, Repr

/-- The state right after the Evolution constructor runs: not evolved. -/
def evo_mk : EvoLifecycle := { evolved := false, steps_taken := 0 }

/-- Embedding of Evolution check evolved (lines 1096-1101): error unless the
evolved flag is set. -/
def check_evolved (s : EvoLifecycle) : Except String Unit :=
  if s.evolved then Except.ok () else Except.error "This instance has not been evolved yet!"

/-- Embedding of the control flow of Evolution.at: its input-parsing helper
calls check evolved before any interpolation work (lines 408-414); the
interpolated data is abstracted as a value that is only returned if the
check passes. -/
def at_guarded {D : Type} (s : EvoLifecycle) (data : D) : Except String D := do
  let _ ← check_evolved s
  return data

/-- Embedding of the control flow of Evolution.modify (lines 249-252):
check evolved runs first; the modified state is returned if it passes. -/
def modify_guarded (s : EvoLifecycle) : Except String EvoLifecycle := do
  let _ ← check_evolved s
  return s

/-- Embedding of Evolution init step zero: does not touch the evolved flag. -/
def init_step_zero_lifecycle (s : EvoLifecycle) : EvoLifecycle :=
  { s with steps_taken := 0 }

/-- Embedding of Evolution take next step: increments the step counter and
does not touch the evolved flag. -/
def take_next_step_lifecycle (s : EvoLifecycle) : EvoLifecycle :=
  { s with steps_taken := s.steps_taken + 1 }

/-- Embedding of Evolution finalize (lines 1006-1015): the only place the
evolved flag is set to True. -/
def finalize_lifecycle (s : EvoLifecycle) : EvoLifecycle :=
  { s with evolved := true }

/-- Embedding of Evolution.evolve (lines 215-247): initialize step zero,
take nsteps - 1 integration steps, then finalize. -/
def evolve_lifecycle (nsteps : ℕ) (s : EvoLifecycle) : EvoLifecycle :=
  finalize_lifecycle (take_next_step_lifecycle^[nsteps - 1] (init_step_zero_lifecycle s))

/-- C10: calling Evolution.at or Evolution.modify on an instance whose
evolved flag is not set raises an error; the evolved flag is False at every
point of the evolve loop before finalization (after step zero and after any
number of integration steps) and is set True by finalization; hence no
interpolated values are ever returned from an un-evolved or partially
evolved track. -/
theorem at_modify_require_evolved {D : Type} (s : EvoLifecycle) (data : D)
    (h : s.evolved = false) :
    (∃ e, at_guarded s data = Except.error e) ∧
    (∃ e, modify_guarded s = Except.error e) ∧
    (∀ k, (take_next_step_lifecycle^[k] (init_step_zero_lifecycle s)).evolved = false) ∧
    (∀ n, (evolve_lifecycle n s).evolved = true) ∧
    (∀ d : D, at_guarded s data ≠ Except.ok d) := by
  have hc : check_evolved s = Except.error "This instance has not been evolved yet!" := by
    simp [check_evolved, h]
  refine ⟨⟨"This instance has not been evolved yet!", ?_⟩,
    ⟨"This instance has not been evolved yet!", ?_⟩, ?_, ?_, ?_⟩
  · simp [at_guarded, hc]
  · simp [modify_guarded, hc]
  · intro k
    induction k with
    | zero => simpa [init_step_zero_lifecycle] using h
    | succ n ih =>
      rw [Function.iterate_succ_apply']
      simpa [take_next_step_lifecycle] using ih
  · intro n
    simp [evolve_lifecycle, finalize_lifecycle]
  · intro d
    simp [at_guarded, hc]

/-- Concrete instance of the evolved-flag theorem, at the freshly
constructed lifecycle state. -/
theorem at_modify_require_evolved_witness :
    evo_mk.evolved = false ∧
    ((∃ e, at_guarded evo_mk (42:ℕ) = Except.error e) ∧
      (∃ e, modify_guarded evo_mk = Except.error e) ∧
      (∀ k, (take_next_step_lifecycle^[k] (init_step_zero_lifecycle evo_mk)).evolved = false) ∧
      (∀ n, (evolve_lifecycle n evo_mk).evolved = true) ∧
      (∀ d : ℕ, at_guarded evo_mk (42:ℕ) ≠ Except.ok d)) :=
  ⟨rfl, at_modify_require_evolved evo_mk (42:ℕ) rfl⟩

/-! ## Adaptive-mode ISCO clamp (New Evolution dot evolve,
evolution.py lines 1294-1298)

After the averaged predictor-corrector increment, the code sets
sepa right = sepa left + dadt times dt, and when that value is below the
current ISCO radius it recomputes dt as
(sepa right - sepa left) / dadt and re-applies the increment.  Since
sepa right was already overwritten, the recomputed dt equals the original
dt, the increment is unchanged, and the separation is NOT clamped to the
ISCO radius. -/

/-- Embedding of the separation increment and ISCO re-clamp of the adaptive
integrator.  Returns the stored right-edge separation and the (possibly
rescaled) time step. -/
def new_evo_sepa_clamp {α : Type} [LinearOrderedField α]
    (sepaL dadt dt risco : α) : α × α :=
  let sepaR := sepaL + dadt * dt
  if sepaR < risco then
    let dt2 := (sepaR - sepaL) / dadt
    (sepaL + dadt * dt2, dt2)
  else
    (sepaR, dt)

/-- C4, code bug, evaluated at a failing input: left separation 10,
hardening rate -2, time step 3, ISCO radius 5.  The averaged step lands at
4, below the ISCO radius; the claimed behavior is that dt is rescaled so
the stored separation equals 5, but the recomputed dt is again 3 and the
stored separation stays 4, strictly below the ISCO radius. -/
theorem new_evo_sepa_clamp_failing_input :
    new_evo_sepa_clamp (10:ℚ) (-2) 3 5 = (4, 3) ∧ (4:ℚ) < 5 := by
  constructor
  · norm_num [new_evo_sepa_clamp]
  · norm_num

/-- Helper fact (not tied to a single claim): whenever the hardening rate is
nonzero, the ISCO re-clamp of the adaptive integrator is the identity: the
recomputed time step equals the original one and the stored separation is
the unclamped value, even when it lies below the ISCO radius. -/
theorem new_evo_sepa_clamp_noop {α : Type} [LinearOrderedField α]
    (sepaL dadt dt risco : α) (h : dadt ≠ 0) :
    new_evo_sepa_clamp sepaL dadt dt risco = (sepaL + dadt * dt, dt) := by
  unfold new_evo_sepa_clamp
  have hdt2 : (sepaL + dadt * dt - sepaL) / dadt = dt := by
    field_simp
  by_cases hlt : sepaL + dadt * dt < risco
  · simp only [if_pos hlt, hdt2]
  · simp only [if_neg hlt]

/-! ## Step-zero initialization of the fixed-step integrator
(Evolution init step zero, evolution.py lines 744-791, and utils.rad isco,
utils.py lines 186-194)

The separations of all steps of each binary are precomputed as
numpy logspace between log10 of the initial separation and log10 of the
ISCO radius of the initial masses; the eccentricity, scale-factor and
masses at step 0 are copied from the population (masses are in fact copied
to every step at this point).  The Schwarzschild constant lives in the
holodeck constants module, which is not part of the sources under
verification; it is threaded through as an explicit positive parameter. -/

/-- Embedding of utils.schwarzschild radius: the constant SCHW times the
mass, with SCHW passed explicitly. -/
noncomputable def schwarzschild_radius (schw mass : ℝ) : ℝ := schw * mass

/-- Embedding of utils.rad isco with its default factor 3: three times the
Schwarzschild radius of the total mass. -/
noncomputable def rad_isco (schw m1 m2 : ℝ) : ℝ :=
  3 * schwarzschild_radius schw (m1 + m2)

/-- Entry k of numpy logspace(x0, x1, num): ten to the power
x0 + k * (x1 - x0) / (num - 1). -/
noncomputable def logspace_at (x0 x1 : ℝ) (num k : ℕ) : ℝ :=
  (10:ℝ) ^ (x0 + (k:ℝ) * ((x1 - x0) / ((num:ℝ) - 1)))

/-- Initial conditions of one binary from the population object. -/
structure InitBinary where
  a0 : ℝ
  m1 : ℝ
  m2 : ℝ
  scafa0 : ℝ
  eccen0 : ℝ

/-- Embedding of the separation array set by Evolution init step zero
(lines 758-764): logspace between log10 of the initial separation and
log10 of the ISCO radius of the initial masses, with S steps. -/
noncomputable def init_sepa (schw : ℝ) (b : InitBinary) (S k : ℕ) : ℝ :=
  logspace_at (Real.logb 10 b.a0) (Real.logb 10 (rad_isco schw b.m1 b.m2)) S k

/-- Embedding of the eccentricity array after init step zero: index 0 is
copied from the population (line 766), the rest of the zero-initialized
array is untouched. -/
def init_eccen (b : InitBinary) (k : ℕ) : ℝ := if k = 0 then b.eccen0 else 0

/-- Embedding of the scale-factor array after init step zero (line 768). -/
def init_scafa (b : InitBinary) (k : ℕ) : ℝ := if k = 0 then b.scafa0 else 0

/-- Embedding of the mass array after init step zero: the initial masses
are copied to every step (lines 774-776). -/
def init_mass (b : InitBinary) (k : ℕ) : ℝ × ℝ := (b.m1, b.m2)

theorem init_sepa_ratio (schw : ℝ) (b : InitBinary) (S : ℕ) (k : ℕ) :
    init_sepa schw b S (k+1) / init_sepa schw b S k =
      (10:ℝ) ^ ((Real.logb 10 (rad_isco schw b.m1 b.m2) - Real.logb 10 b.a0) / ((S:ℝ) - 1)) := by
  unfold init_sepa logspace_at
  rw [← Real.rpow_sub (by norm_num : (0:ℝ) < 10)]
  congr 1
  push_cast
  ring

/-- C3: after step-zero initialization with S steps, for every binary the
stored separations are log-uniformly spaced (every successive ratio equals
the first one), the separation at step 0 equals the population's initial
separation, the separation at step S-1 equals the ISCO radius (three times
the Schwarzschild radius of the initial total mass), and the step-0
eccentricity, scale-factor and masses equal the initial population values
exactly. -/
theorem init_step_zero_spec (schw : ℝ) (b : InitBinary) (S : ℕ)
    (hschw : 0 < schw) (ha : 0 < b.a0) (hm : 0 < b.m1 + b.m2) (hS : 2 ≤ S) :
    (∀ k, init_sepa schw b S (k+1) / init_sepa schw b S k =
      init_sepa schw b S 1 / init_sepa schw b S 0) ∧
    init_sepa schw b S 0 = b.a0 ∧
    init_sepa schw b S (S-1) = rad_isco schw b.m1 b.m2 ∧
    init_eccen b 0 = b.eccen0 ∧
    init_scafa b 0 = b.scafa0 ∧
    init_mass b 0 = (b.m1, b.m2) := by
  have hrisco : 0 < rad_isco schw b.m1 b.m2 := by
    unfold rad_isco schwarzschild_radius
    positivity
  have h10 : (0:ℝ) < 10 := by norm_num
  have h10ne : (10:ℝ) ≠ 1 := by norm_num
  refine ⟨?_, ?_, ?_, rfl, rfl, rfl⟩
  · intro _k
    rw [init_sepa_ratio, init_sepa_ratio]
  · unfold init_sepa logspace_at
    rw [Nat.cast_zero, zero_mul, add_zero]
    exact Real.rpow_logb h10 h10ne ha
  · unfold init_sepa logspace_at
    have hS1 : ((S:ℝ) - 1) ≠ 0 := by
      have : (2:ℝ) ≤ (S:ℝ) := by exact_mod_cast hS
      linarith
    have hcast : ((S - 1 : ℕ) : ℝ) = (S:ℝ) - 1 := by
      have : 1 ≤ S := le_trans (by norm_num) hS
      push_cast [this]
      ring
    rw [hcast]
    have hexp : Real.logb 10 b.a0 + ((S:ℝ) - 1) *
        ((Real.logb 10 (rad_isco schw b.m1 b.m2) - Real.logb 10 b.a0) / ((S:ℝ) - 1)) =
        Real.logb 10 (rad_isco schw b.m1 b.m2) := by
      field_simp
    rw [hexp]
    exact Real.rpow_logb h10 h10ne hrisco

/-- Concrete instance of the step-zero initialization theorem: unit
Schwarzschild constant, initial separation 2, unit masses, 2 steps. -/
theorem init_step_zero_spec_witness :
    (0 < (1:ℝ) ∧ 0 < (2:ℝ) ∧ 0 < (1:ℝ) + 1 ∧ 2 ≤ 2) ∧
    ((∀ k, init_sepa 1 ⟨2, 1, 1, 1, 0⟩ 2 (k+1) / init_sepa 1 ⟨2, 1, 1, 1, 0⟩ 2 k =
      init_sepa 1 ⟨2, 1, 1, 1, 0⟩ 2 1 / init_sepa 1 ⟨2, 1, 1, 1, 0⟩ 2 0) ∧
    init_sepa 1 ⟨2, 1, 1, 1, 0⟩ 2 0 = (2:ℝ) ∧
    init_sepa 1 ⟨2, 1, 1, 1, 0⟩ 2 (2-1) = rad_isco 1 1 1 ∧
    init_eccen ⟨2, 1, 1, 1, 0⟩ 0 = 0 ∧
    init_scafa ⟨2, 1, 1, 1, 0⟩ 0 = 1 ∧
    init_mass ⟨2, 1, 1, 1, 0⟩ 0 = (1, 1)) :=
  ⟨⟨one_pos, two_pos, by norm_num, le_refl 2⟩,
    init_step_zero_spec 1 ⟨2, 1, 1, 1, 0⟩ 2 one_pos two_pos (by norm_num) (le_refl 2)⟩

/-! ## Trajectory interpolation
(Evolution.at, evolution.py lines 271-373; the index and fraction helper at
lines 471-528; the array interpolation helper at lines 530-593)

The interpolation variable is handled in log10 space: the stored
track values (observer-frame orbital frequency for fobs, reversed
separation for sepa, both increasing) and the targets are mapped through
log10 before the index search.  For each target, numpy argmax over the
boolean mask (target at most stored value) yields the first index at or
above the target, with 0 when the mask is all False; index 0 is classified
invalid, and invalid entries are filled with NaN (modelled here as none). -/

/-- First index of the track at which the target is at most the stored
value, none when the target exceeds every stored value.  numpy argmax over
the boolean mask returns this index when it exists and 0 otherwise. -/
def first_ge_index {α : Type} [LinearOrder α] (t : α) : List α → Option ℕ
  | [] => none
  | x :: xs => if t ≤ x then some 0 else (first_ge_index t xs).map (fun n => n + 1)

/-- The aft index of Evolution at index frac (line 505): argmax of the
mask, hence the first-at-or-above index, and 0 when there is none. -/
def aft_index {α : Type} [LinearOrder α] (xold : List α) (t : α) : ℕ :=
  (first_ge_index t xold).getD 0

/-- The bef index (lines 513-514): aft minus one at valid entries; at
invalid entries aft is 0 and bef stays 0, which truncated subtraction
produces as well. -/
def bef_index {α : Type} [LinearOrder α] (xold : List α) (t : α) : ℕ :=
  aft_index xold t - 1

/-- The interpolation fraction (lines 518-526): the distance from the bef
x-value to the target over the distance from the bef to the aft x-value,
and 0 where that denominator vanishes. -/
def interp_frac {α : Type} [LinearOrderedField α] (xold : List α) (t : α) : α :=
  let xa := xold.getD (aft_index xold t) 0
  let xb := xold.getD (bef_index xold t) 0
  if xa - xb ≠ 0 then (t - xb) / (xa - xb) else 0

/-- Linear-space interpolation of a dependent variable (lines 577-583 with
the lin-interp flag set): value at bef plus fraction times the difference. -/
def interp_lin {α : Type} [LinearOrderedField α] (xold yold : List α) (t : α) : α :=
  let ya := yold.getD (aft_index xold t) 0
  let yb := yold.getD (bef_index xold t) 0
  yb + (ya - yb) * interp_frac xold t

/-- Log-log interpolation of a dependent variable (lines 577-591 with the
lin-interp flag unset): the data is mapped through log10, linearly
interpolated, and mapped back through ten-to-the-power. -/
noncomputable def interp_log (xold yold : List ℝ) (t : ℝ) : ℝ :=
  let la := Real.logb 10 (yold.getD (aft_index xold t) 0)
  let lb := Real.logb 10 (yold.getD (bef_index xold t) 0)
  (10:ℝ) ^ (lb + (la - lb) * interp_frac xold t)

/-- Interpolation of one dependent variable of one binary to one target, on
the already log10-mapped x-track: none (NaN fill, lines 365-366) when the
aft index is 0 (invalid, line 510), otherwise the lin-lin or log-log
interpolated value. -/
noncomputable def at_one (lin : Bool) (xold yold : List ℝ) (t : ℝ) : Option ℝ :=
  if 0 < aft_index xold t then
    some (if lin then interp_lin xold yold t else interp_log xold yold t)
  else none

/-- Evolution.at on one binary and one target for a direction-normalized
(increasing, positive) stored track: both the track and the target are
mapped through log10 (lines 446-456) before interpolation.  For fobs the
track is the stored observer-frame orbital frequencies; for sepa it is the
reversed stored separations together with reversed dependent data. -/
noncomputable def at_track_one (lin : Bool) (xs yold : List ℝ) (target : ℝ) : Option ℝ :=
  at_one lin (xs.map (Real.logb 10)) yold (Real.logb 10 target)

theorem first_ge_index_none_iff {α : Type} [LinearOrder α] (t : α) (xs : List α) :
    first_ge_index t xs = none ↔ ∀ x ∈ xs, ¬ t ≤ x := by
  induction xs with
  | nil => simp [first_ge_index]
  | cons x xs ih =>
    by_cases h : t ≤ x
    · simp [first_ge_index, h]
    · simp [first_ge_index, h, ih, not_le.mp h]

theorem first_ge_index_some {α : Type} [LinearOrder α] {t : α} {xs : List α} {n : ℕ}
    (h : first_ge_index t xs = some n) :
    ∃ hn : n < xs.length, t ≤ xs.get ⟨n, hn⟩ ∧
      ∀ m (hm : m < xs.length), m < n → ¬ t ≤ xs.get ⟨m, hm⟩ := by
  induction xs generalizing n with
  | nil => simp [first_ge_index] at h
  | cons x xs ih =>
    by_cases hx : t ≤ x
    · rw [first_ge_index, if_pos hx] at h
      obtain rfl : (0:ℕ) = n := Option.some_injective _ h
      exact ⟨by simp, by simpa using hx, fun m hm hmn => absurd hmn (Nat.not_lt_zero m)⟩
    · rw [first_ge_index, if_neg hx] at h
      obtain ⟨n', hn', rfl⟩ := Option.map_eq_some'.mp h
      obtain ⟨hlt, hle, hmin⟩ := ih hn'
      refine ⟨by simpa using Nat.succ_lt_succ hlt, by simpa using hle, ?_⟩
      intro m hm hmn
      cases m with
      | zero => simpa using hx
      | succ m' =>
        have hm' : m' < xs.length := by simpa using hm
        have := hmin m' hm' (by omega)
        simpa using this

theorem first_ge_index_locate {α : Type} [LinearOrder α] {xs : List α}
    (hpair : List.Pairwise (· < ·) xs) (s : ℕ) (hs : s < xs.length) :
    first_ge_index (xs.get ⟨s, hs⟩) xs = some s := by
  induction xs generalizing s with
  | nil => simp at hs
  | cons x xs ih =>
    rcases List.pairwise_cons.mp hpair with ⟨hx, hxs⟩
    cases s with
    | zero => simp [first_ge_index]
    | succ s' =>
      have hs' : s' < xs.length := by simpa using hs
      have hmem : xs.get ⟨s', hs'⟩ ∈ xs := xs.get_mem _ _
      have hlt : x < xs.get ⟨s', hs'⟩ := hx _ hmem
      have hget : (x :: xs).get ⟨s' + 1, hs⟩ = xs.get ⟨s', hs'⟩ := rfl
      rw [hget, first_ge_index, if_neg (not_le.mpr hlt), ih hxs s' hs']
      rfl

theorem aft_index_locate {α : Type} [LinearOrder α] {xs : List α}
    (hpair : List.Pairwise (· < ·) xs) (s : ℕ) (hs : s < xs.length) :
    aft_index xs (xs.get ⟨s, hs⟩) = s := by
  unfold aft_index
  rw [first_ge_index_locate hpair s hs]
  rfl

theorem pairwise_lt_get_lt {α : Type} [LinearOrder α] {xs : List α}
    (hpair : List.Pairwise (· < ·) xs) {i j : ℕ}
    (hi : i < xs.length) (hj : j < xs.length) (hij : i < j) :
    xs.get ⟨i, hi⟩ < xs.get ⟨j, hj⟩ := by
  have := List.pairwise_iff_getElem.mp hpair i j hi hj hij
  simpa using this

/-- Round-trip of at one on the already log-mapped track: at a stored
x-value of positive index, the aft index is that very index, the
interpolation fraction is one, and the interpolation reproduces the stored
dependent value exactly (in log-log mode provided the value is positive,
since it then travels through log10 and back). -/
theorem at_one_roundtrip (lin : Bool) (xold yold : List ℝ) (s : ℕ)
    (hpair : List.Pairwise (· < ·) xold)
    (hs1 : 1 ≤ s) (hs : s < xold.length) (hsy : s < yold.length)
    (hmode : lin = true ∨ 0 < yold.get ⟨s, hsy⟩) :
    at_one lin xold yold (xold.get ⟨s, hs⟩) = some (yold.get ⟨s, hsy⟩) := by
  have haft : aft_index xold (xold.get ⟨s, hs⟩) = s := aft_index_locate hpair s hs
  have hbef : bef_index xold (xold.get ⟨s, hs⟩) = s - 1 := by
    unfold bef_index
    rw [haft]
  have hs0 : s - 1 < xold.length := by omega
  have hxa : xold.getD (aft_index xold (xold.get ⟨s, hs⟩)) 0 = xold.get ⟨s, hs⟩ := by
    rw [haft]
    simp [List.getD_eq_getElem?_getD, List.getElem?_eq_getElem hs]
  have hxb : xold.getD (bef_index xold (xold.get ⟨s, hs⟩)) 0 = xold.get ⟨s - 1, hs0⟩ := by
    rw [hbef]
    simp [List.getD_eq_getElem?_getD, List.getElem?_eq_getElem hs0]
  have hblta : xold.get ⟨s - 1, hs0⟩ < xold.get ⟨s, hs⟩ :=
    pairwise_lt_get_lt hpair hs0 hs (by omega)
  have hfrac : interp_frac xold (xold.get ⟨s, hs⟩) = 1 := by
    unfold interp_frac
    rw [hxa, hxb]
    rw [if_pos (sub_ne_zero.mpr (ne_of_gt hblta))]
    exact div_self (sub_ne_zero.mpr (ne_of_gt hblta))
  have hya : yold.getD (aft_index xold (xold.get ⟨s, hs⟩)) 0 = yold.get ⟨s, hsy⟩ := by
    rw [haft]
    simp [List.getD_eq_getElem?_getD, List.getElem?_eq_getElem hsy]
  unfold at_one
  rw [if_pos (by omega : 0 < aft_index xold (xold.get ⟨s, hs⟩))]
  cases lin with
  | true =>
    rw [if_pos rfl]
    refine congrArg some ?_
    unfold interp_lin
    rw [hya, hfrac]
    ring
  | false =>
    rcases hmode with h | hy
    · exact absurd h (by simp)
    · rw [if_neg (by simp)]
      refine congrArg some ?_
      simp only [interp_log]
      rw [hya, hfrac, mul_one]
      rw [show Real.logb 10 (yold.getD (bef_index xold (xold.get ⟨s, hs⟩)) 0) +
          (Real.logb 10 (yold.get ⟨s, hsy⟩) -
            Real.logb 10 (yold.getD (bef_index xold (xold.get ⟨s, hs⟩)) 0)) =
          Real.logb 10 (yold.get ⟨s, hsy⟩) from by ring]
      exact Real.rpow_logb (by norm_num) (by norm_num) hy

theorem pairwise_logb_map {xs : List ℝ} (hpair : List.Pairwise (· < ·) xs)
    (hpos : ∀ x ∈ xs, 0 < x) :
    List.Pairwise (· < ·) (xs.map (Real.logb 10)) := by
  rw [List.pairwise_map]
  refine hpair.imp_of_mem ?_
  intro a b ha hb hab
  exact Real.logb_lt_logb (by norm_num) (hpos a ha) hab

/-- C2 amended: for every evolved binary and every step s of positive index
in its direction-normalized track (i.e. every step whose stored
independent-variable value is strictly greater than the track minimum),
calling Evolution.at with the binary's own stored value at step s as the
target reproduces the stored dependent-variable value at step s exactly
(the interpolation fraction is exactly one); in log-log mode the dependent
value must be positive, as in the code, which requires log-interpolated
quantities to be strictly positive.  At step 0 of the normalized track the
result is NaN instead (see the counterexample). -/
theorem at_track_roundtrip (lin : Bool) (xs yold : List ℝ) (s : ℕ)
    (hpair : List.Pairwise (· < ·) xs)
    (hpos : ∀ x ∈ xs, 0 < x)
    (hs1 : 1 ≤ s) (hs : s < xs.length) (hsy : s < yold.length)
    (hmode : lin = true ∨ 0 < yold.get ⟨s, hsy⟩) :
    at_track_one lin xs yold (xs.get ⟨s, hs⟩) = some (yold.get ⟨s, hsy⟩) := by
  have hs' : s < (xs.map (Real.logb 10)).length := by simpa using hs
  have hpair' := pairwise_logb_map hpair hpos
  have hget : Real.logb 10 (xs.get ⟨s, hs⟩) = (xs.map (Real.logb 10)).get ⟨s, hs'⟩ := by
    simp
  unfold at_track_one
  rw [hget]
  exact at_one_roundtrip lin _ yold s hpair' hs1 hs' hsy hmode

/-- C2 counterexample: a two-step track with stored x-values 1 and 10 and
stored dependent values 5 and 7, interpolated at the binary's own stored
step-0 value (the track minimum, target 1), returns the NaN fill value
(none), not the stored step-0 dependent value 5. -/
theorem at_track_roundtrip_counterexample :
    at_track_one true [(1:ℝ), 10] [5, 7] 1 = none ∧
    at_track_one true [(1:ℝ), 10] [5, 7] 1 ≠ some 5 := by
  have h : at_track_one true [(1:ℝ), 10] [5, 7] 1 = none := by
    simp [at_track_one, at_one, aft_index, first_ge_index, Real.logb_one]
  exact ⟨h, by rw [h]; simp⟩

/-- Concrete instance of the amended round-trip theorem: the same track as
the counterexample, at step 1, linear mode. -/
theorem at_track_roundtrip_witness :
    (List.Pairwise (· < ·) [(1:ℝ), 10] ∧ (∀ x ∈ [(1:ℝ), 10], 0 < x) ∧
      1 ≤ 1 ∧ 1 < ([(1:ℝ), 10]).length ∧ 1 < ([(5:ℝ), 7]).length) ∧
    at_track_one true [(1:ℝ), 10] [5, 7]
        (([(1:ℝ), 10]).get ⟨1, by norm_num⟩) =
      some (([(5:ℝ), 7]).get ⟨1, by norm_num⟩) :=
  ⟨⟨by norm_num, by norm_num, le_refl 1, by norm_num, by norm_num⟩,
    at_track_roundtrip true [(1:ℝ), 10] [5, 7] 1
      (by norm_num) (by norm_num) (le_refl 1) (by norm_num) (by norm_num)
      (Or.inl rfl)⟩

/-- C9: a target is classified as inside a binary's direction-normalized
track if and only if it is strictly greater than the smallest stored value
and at most the largest stored value; in particular a target equal to the
smallest stored value (step-0 observer-frame orbital frequency for fobs,
final separation for sepa) is invalid and interpolates to NaN, while a
target equal to the largest stored value is interpolated normally. -/
theorem at_track_inside_iff (lin : Bool) (xs yold : List ℝ) (t : ℝ)
    (hpair : List.Pairwise (· < ·) xs)
    (hpos : ∀ x ∈ xs, 0 < x)
    (ht : 0 < t)
    (hne : xs ≠ []) :
    (0 < aft_index (xs.map (Real.logb 10)) (Real.logb 10 t) ↔
      xs.head hne < t ∧ t ≤ xs.getLast hne) ∧
    at_track_one lin xs yold (xs.head hne) = none ∧
    (2 ≤ xs.length → (at_track_one lin xs yold (xs.getLast hne)).isSome = true) := by
  have hpair' := pairwise_logb_map hpair hpos
  have hn0 : 0 < xs.length := List.length_pos.mpr hne
  have hn0' : 0 < (xs.map (Real.logb 10)).length := by simpa using hn0
  have hlastlen : xs.length - 1 < xs.length := by omega
  have hlastlen' : xs.length - 1 < (xs.map (Real.logb 10)).length := by simpa using hlastlen
  have hhead : xs.head hne = xs.get ⟨0, hn0⟩ := by
    simp [List.head_eq_getElem]
  have hlast : xs.getLast hne = xs.get ⟨xs.length - 1, hlastlen⟩ := by
    simp [List.getLast_eq_getElem]
  have hx0 : (xs.map (Real.logb 10)).get ⟨0, hn0'⟩ = Real.logb 10 (xs.get ⟨0, hn0⟩) := by
    simp
  have hxlast : (xs.map (Real.logb 10)).get ⟨xs.length - 1, hlastlen'⟩ =
      Real.logb 10 (xs.get ⟨xs.length - 1, hlastlen⟩) := by
    simp
  refine ⟨⟨?_, ?_⟩, ?_, ?_⟩
  · -- valid implies strictly above the minimum and at most the maximum
    intro hvalid
    cases hfg : first_ge_index (Real.logb 10 t) (xs.map (Real.logb 10)) with
    | none =>
      rw [aft_index, hfg] at hvalid
      simp at hvalid
    | some k =>
      have haft : aft_index (xs.map (Real.logb 10)) (Real.logb 10 t) = k := by
        rw [aft_index, hfg]
        rfl
      rw [haft] at hvalid
      obtain ⟨hk, hle, hmin⟩ := first_ge_index_some hfg
      have hklen : k < xs.length := by simpa using hk
      have hnot : ¬ Real.logb 10 t ≤ (xs.map (Real.logb 10)).get ⟨0, hn0'⟩ :=
        hmin 0 hn0' hvalid
      rw [hx0] at hnot
      have hheadlt : xs.get ⟨0, hn0⟩ < t := by
        have h1 := not_le.mp hnot
        exact (Real.logb_lt_logb_iff (by norm_num)
          (hpos _ (xs.get_mem 0 hn0)) ht).mp h1
      have hk_le_last : (xs.map (Real.logb 10)).get ⟨k, hk⟩ ≤
          (xs.map (Real.logb 10)).get ⟨xs.length - 1, hlastlen'⟩ := by
        rcases Nat.lt_or_ge k (xs.length - 1) with hklt | hkge
        · exact le_of_lt (pairwise_lt_get_lt hpair' hk hlastlen' hklt)
        · have : k = xs.length - 1 := by omega
          subst this
          exact le_refl _
      have hlelast : Real.logb 10 t ≤
          Real.logb 10 (xs.get ⟨xs.length - 1, hlastlen⟩) := by
        rw [← hxlast]
        exact le_trans hle hk_le_last
      have htlast : t ≤ xs.get ⟨xs.length - 1, hlastlen⟩ :=
        (Real.logb_le_logb (by norm_num) ht
          (hpos _ (xs.get_mem _ hlastlen))).mp hlelast
      rw [hhead, hlast]
      exact ⟨hheadlt, htlast⟩
  · -- strictly above the minimum and at most the maximum implies valid
    rintro ⟨h1, h2⟩
    rw [hhead] at h1
    rw [hlast] at h2
    have ht' : Real.logb 10 t ≤ (xs.map (Real.logb 10)).get ⟨xs.length - 1, hlastlen'⟩ := by
      rw [hxlast]
      exact (Real.logb_le_logb (by norm_num) ht
        (hpos _ (xs.get_mem _ hlastlen))).mpr h2
    cases hfg : first_ge_index (Real.logb 10 t) (xs.map (Real.logb 10)) with
    | none =>
      have := (first_ge_index_none_iff (Real.logb 10 t) (xs.map (Real.logb 10))).mp hfg
        _ (List.get_mem _ _ hlastlen')
      exact absurd ht' this
    | some k =>
      have haft : aft_index (xs.map (Real.logb 10)) (Real.logb 10 t) = k := by
        rw [aft_index, hfg]
        rfl
      rw [haft]
      by_contra h0
      have hk0 : k = 0 := by omega
      subst hk0
      obtain ⟨hk, hle, _⟩ := first_ge_index_some hfg
      have hk' : (xs.map (Real.logb 10)).get ⟨0, hk⟩ =
          Real.logb 10 (xs.get ⟨0, hn0⟩) := by simp
      rw [hk'] at hle
      have : t ≤ xs.get ⟨0, hn0⟩ :=
        (Real.logb_le_logb (by norm_num) ht (hpos _ (xs.get_mem 0 hn0))).mp hle
      linarith
  · -- target equal to the smallest stored value interpolates to NaN
    have hfg : first_ge_index (Real.logb 10 (xs.head hne)) (xs.map (Real.logb 10)) =
        some 0 := by
      have heq : Real.logb 10 (xs.head hne) = (xs.map (Real.logb 10)).get ⟨0, hn0'⟩ := by
        rw [hhead, hx0]
      rw [heq]
      exact first_ge_index_locate hpair' 0 hn0'
    have haft : aft_index (xs.map (Real.logb 10)) (Real.logb 10 (xs.head hne)) = 0 := by
      rw [aft_index, hfg]
      rfl
    unfold at_track_one at_one
    rw [haft]
    simp
  · -- target equal to the largest stored value is interpolated normally
    intro h2len
    have hs1 : 1 ≤ xs.length - 1 := by omega
    have hfg : first_ge_index (Real.logb 10 (xs.getLast hne)) (xs.map (Real.logb 10)) =
        some (xs.length - 1) := by
      have heq : Real.logb 10 (xs.getLast hne) =
          (xs.map (Real.logb 10)).get ⟨xs.length - 1, hlastlen'⟩ := by
        rw [hlast, hxlast]
      rw [heq]
      exact first_ge_index_locate hpair' _ hlastlen'
    have haft : aft_index (xs.map (Real.logb 10)) (Real.logb 10 (xs.getLast hne)) =
        xs.length - 1 := by
      rw [aft_index, hfg]
      rfl
    unfold at_track_one at_one
    rw [haft]
    rw [if_pos (by omega : 0 < xs.length - 1)]
    rfl

/-- Concrete instance of the track-inside classification theorem: the track
with stored values 1 and 10, tested at target 10. -/
theorem at_track_inside_iff_witness :
    (List.Pairwise (· < ·) [(1:ℝ), 10] ∧ (∀ x ∈ [(1:ℝ), 10], 0 < x) ∧
      (0:ℝ) < 10 ∧ ([(1:ℝ), 10] : List ℝ) ≠ []) ∧
    ((0 < aft_index ([(1:ℝ), 10].map (Real.logb 10)) (Real.logb 10 10) ↔
      ([(1:ℝ), 10]).head (by simp) < 10 ∧ (10:ℝ) ≤ ([(1:ℝ), 10]).getLast (by simp)) ∧
    at_track_one true [(1:ℝ), 10] [5, 7] (([(1:ℝ), 10]).head (by simp)) = none ∧
    (2 ≤ ([(1:ℝ), 10]).length →
      (at_track_one true [(1:ℝ), 10] [5, 7] (([(1:ℝ), 10]).getLast (by simp))).isSome = true)) :=
  ⟨⟨by norm_num, by norm_num, by norm_num, by simp⟩,
    at_track_inside_iff true [(1:ℝ), 10] [5, 7] 10
      (by norm_num) (by norm_num) (by norm_num) (by simp)⟩

/-! ## Negative time-step detection in the fixed-step integrator
(Evolution take next step, evolution.py lines 812-866, and the two-point
log-log trapezoid rule of utils, called as trapz loglog at line 862)

Per integration step and per binary, the code first computes the
provisional duration dt as the (positive) separation difference divided by
the negated left-edge hardening rate, raising ValueError when any binary
gets a negative dt (lines 823-830); it then recomputes dt with the log-log
trapezoid rule applied to the pair of inverse hardening rates against the
pair of separations (note the code pairs the left-edge rate with the
right-edge separation and vice versa), raising ValueError again when any
binary gets a negative dt (lines 857-866). -/

/-- Per-binary inputs of one integration step: the left and right edge
separations sampled at initialization, and the left and right edge net
hardening rates. -/
structure StepBin where
  sepaL : ℝ
  sepaR : ℝ
  dadtL : ℝ
  dadtR : ℝ

/-- The provisional step duration (lines 824-826): the separation decrease
over the step divided by the negated left-edge hardening rate. -/
noncomputable def dt_prov (b : StepBin) : ℝ := (b.sepaL - b.sepaR) / (-b.dadtL)

/-- Embedding of the two-point case of utils trapezoid loglog with its
default arguments (dlogx None, lntol 1e-2, natural-log base): compute the
local power-law index gamma from the two samples; when gamma is within the
numpy isclose tolerance of -1 integrate as a flat log measure, otherwise
use the closed-form power-law integral.  The final multiplication by the
natural log of the log base e is written out as in the source. -/
noncomputable def trapz_loglog_two (y0 y1 x0 x1 : ℝ) : ℝ :=
  let delta_logx := Real.log x1 - Real.log x0
  let gamma := (Real.log y1 - Real.log y0) / delta_logx
  let aa := (x0 * y0 + x1 * y1) / 2
  let trapz :=
    if |gamma - (-1)| ≤ 1/100 + (1/100) * |(-1:ℝ)| then aa * delta_logx
    else (x1 * y1 - x0 * y0) / (gamma + 1)
  Real.log (Real.exp 1) * trapz

/-- The trapezoid-corrected step duration of one binary (lines 860-862):
the log-log trapezoid rule on the inverse hardening rates versus the
separation pair, with the code's pairing of values. -/
noncomputable def dt_trapz (b : StepBin) : ℝ :=
  trapz_loglog_two (1 / (-b.dadtL)) (1 / (-b.dadtR)) b.sepaR b.sepaL

/-- Embedding of the duration computations and fatal checks of Evolution
take next step: the provisional durations are checked first, then the
trapezoid-corrected durations; a ValueError (modelled as Except.error) is
raised when any of them is negative, otherwise the corrected durations are
used. -/
noncomputable def take_next_step_durations (bins : List StepBin) : Except String (List ℝ) :=
  if bins.any (fun b => decide (dt_prov b < 0)) then
    Except.error "Negative time-steps found"
  else if bins.any (fun b => decide (dt_trapz b < 0)) then
    Except.error "Negative time-steps found"
  else
    Except.ok (bins.map dt_trapz)

/-- C5: during a fixed-time step, a fatal error is raised if and only if
some binary's computed step duration is negative: either its provisional
duration (separation decrease over negated left hardening rate) or its
log-log trapezoid-corrected duration; otherwise the step completes and
returns the corrected durations. -/
theorem take_next_step_error_iff (bins : List StepBin) :
    (∃ e, take_next_step_durations bins = Except.error e) ↔
      (∃ b ∈ bins, (b.sepaL - b.sepaR) / (-b.dadtL) < 0) ∨
      (∃ b ∈ bins, dt_trapz b < 0) := by
  have hA : bins.any (fun b => decide (dt_prov b < 0)) = true ↔
      ∃ b ∈ bins, (b.sepaL - b.sepaR) / (-b.dadtL) < 0 := by
    simp [List.any_eq_true, dt_prov]
  have hB : bins.any (fun b => decide (dt_trapz b < 0)) = true ↔
      ∃ b ∈ bins, dt_trapz b < 0 := by
    simp [List.any_eq_true]
  by_cases h1 : bins.any (fun b => decide (dt_prov b < 0)) = true
  · constructor
    · intro _
      exact Or.inl (hA.mp h1)
    · intro _
      refine ⟨"Negative time-steps found", ?_⟩
      simp [take_next_step_durations, h1]
  · by_cases h2 : bins.any (fun b => decide (dt_trapz b < 0)) = true
    · constructor
      · intro _
        exact Or.inr (hB.mp h2)
      · intro _
        refine ⟨"Negative time-steps found", ?_⟩
        simp [take_next_step_durations, h1, h2]
    · constructor
      · intro ⟨e, he⟩
        simp [take_next_step_durations, h1, h2] at he
      · intro h
        rcases h with h | h
        · exact absurd (hA.mpr h) h1
        · exact absurd (hB.mpr h) h2

end Holodeck
